import Mathlib

/-!
Verification of the frac-sequencing optimizer (`optimize.py`).

The Python source is shallowly embedded: floats become `ℚ`, Python dicts
become either two-field records (the fleet map, whose keys are exactly
"A"/"B") or association lists (the well map), and operations that can raise
a Python exception (dict lookup with a missing key, division by zero,
`random.randint` on an empty range) return `Option`.  The activation flag of
a gene, an int that the program only ever sets to 0 or 1, is modelled as
`Bool`.  Randomness is made explicit: every random draw becomes a parameter
of the embedded function, and theorems quantify over all draws.
-/

/-- One frac operation within a well (`Stage` dataclass in the source). -/
structure Stage where
  stage_id : Nat
  well_id : String
  order : Nat
  duration : ℚ
  completed : Bool
  prop : ℚ
  fluid : ℚ
deriving DecidableEq

/-- A named drill site (`Well` dataclass in the source). -/
structure Well where
  well_id : String
  formation : String
  stages : List Stage
deriving DecidableEq

/-- A gene is `(well_id, active_flag)`; a chromosome is a list of genes. -/
abbrev Gene := String × Bool

abbrev Chromosome := List Gene

/-- Formation difficulty multiplier: the dict literal with `.get`
default 1.10 inside `calculate_stage_duration`. -/
def formationFactor (formation : String) : ℚ :=
  if formation = "JM" then 1.00
  else if formation = "DEAN" then 1.05
  else if formation = "LSS" then 1.10
  else if formation = "WCA" then 1.15
  else if formation = "WCB" then 1.20
  else if formation = "WCD" then 1.25
  else 1.10

/-- Embedding of `calculate_stage_duration`.  The row's fields
`RATE (bpm)`, `CVOL (bbl)` and `FORMATION` are passed directly.  The source
performs no input validation; the only failure is Python's division by zero
when `rate * 60 == 0`, modelled by `none`. -/
def calculate_stage_duration (rate cvol : ℚ) (formation : String) : Option ℚ :=
  if rate * 60 = 0 then none
  else
    let non_pump_minutes : ℚ := 15
    let pump_time_hours := cvol / (rate * 60)
    some (pump_time_hours * formationFactor formation + non_pump_minutes / 60)

/-- The `fleetTime` dict of the source: its keys are exactly "A" and "B"
(it is created with both keys and, as proved below, written only at keys
read successfully first). -/
structure FleetTime where
  a : ℚ
  b : ℚ
deriving DecidableEq

/-- Reading `fleetTime[fleet]`: a missing key is Python's `KeyError`,
modelled by `none`. -/
def fleetGet (ft : FleetTime) (fleet : String) : Option ℚ :=
  if fleet = "A" then some ft.a
  else if fleet = "B" then some ft.b
  else none

/-- Writing `fleetTime[fleet] = v` for a key already present. -/
def fleetSet (ft : FleetTime) (fleet : String) (v : ℚ) : FleetTime :=
  if fleet = "A" then ⟨v, ft.b⟩
  else if fleet = "B" then ⟨ft.a, v⟩
  else ft

/-- Reading `wellTime.get(w, 0.0)` on the association-list model of the
`wellTime` dict. -/
def wellGet : List (String × ℚ) → String → ℚ
  | [], _ => 0
  | (k, v) :: rest, w => if k = w then v else wellGet rest w

/-- One record of the timeline the simulator computes: the per-iteration
values `(well_id, order, fleet, start, finish)` of the loop in `simulate`
(the source computes `start`/`finish` each iteration and discards them;
they are recorded here so that theorems can speak about the intervals). -/
structure TimelineRec where
  well_id : String
  order : Nat
  fleet : String
  start : ℚ
  finish : ℚ
deriving DecidableEq

/-- The loop of `simulate`, instrumented with the list of computed
`(start, finish)` records.  Failure (`none`) is a `KeyError` on
`fleetTime[fleet]`. -/
def simulateAux : List (Stage × String) → FleetTime → List (String × ℚ) →
    Option (FleetTime × List TimelineRec)
  | [], ft, _ => some (ft, [])
  | (stage, fleet) :: rest, ft, wt =>
    match fleetGet ft fleet with
    | none => none
    | some avail =>
      let start := max avail (wellGet wt stage.well_id)
      let finish := start + stage.duration
      (simulateAux rest (fleetSet ft fleet finish) ((stage.well_id, finish) :: wt)).map
        (fun r => (r.1, ⟨stage.well_id, stage.order, fleet, start, finish⟩ :: r.2))

/-- Embedding of `simulate`: run the loop from `fleetTime = {"A": 0.0, "B": 0.0}`
and an empty `wellTime`, and return `max(fleetTime.values())`. -/
def simulate (sequence : List (Stage × String)) : Option ℚ :=
  (simulateAux sequence ⟨0, 0⟩ []).map (fun r => max r.1.a r.1.b)

/-- Embedding of `bestFleet`: the source returns "A" iff
`fleetTime["A"] >= fleetTime["B"]`. -/
def bestFleet (stage : Stage) (ft : FleetTime) : String :=
  if ft.a ≥ ft.b then "A" else "B"

/-- Writing `fleetTime[fleet] += d` inside `buildSequence`; `fleet` comes
from `bestFleet`, so both keys are present. -/
def fleetAdd (ft : FleetTime) (fleet : String) (d : ℚ) : FleetTime :=
  if fleet = "A" then ⟨ft.a + d, ft.b⟩
  else if fleet = "B" then ⟨ft.a, ft.b + d⟩
  else ft

/-- Lookup in `wellMap = {w.well_id: w for w in wells}`: a dict
comprehension keeps the last binding of a duplicated key, and a missing
key raises `KeyError` (`none`). -/
def wellFind : List Well → String → Option Well
  | [], _ => none
  | w :: rest, wid =>
    match wellFind rest wid with
    | some r => some r
    | none => if w.well_id = wid then some w else none

/-- The inner loop of `buildSequence` over one well's stages: completed
stages are skipped, each remaining stage is routed by `bestFleet` and the
chosen fleet's running time is advanced by the stage duration. -/
def buildStages : List Stage → FleetTime → List (Stage × String) × FleetTime
  | [], ft => ([], ft)
  | stage :: rest, ft =>
    if stage.completed then buildStages rest ft
    else
      let fleet := bestFleet stage ft
      let ft2 := fleetAdd ft fleet stage.duration
      let r := buildStages rest ft2
      ((stage, fleet) :: r.1, r.2)

/-- The outer loop of `buildSequence` over the chromosome's genes:
inactive genes contribute nothing; an active gene looks its well up in
`wellMap` (failure = `KeyError`). -/
def buildGenes : Chromosome → List Well → FleetTime →
    Option (List (Stage × String) × FleetTime)
  | [], _, ft => some ([], ft)
  | (wid, active) :: rest, wells, ft =>
    if active then
      (wellFind wells wid).bind (fun w =>
        let r := buildStages w.stages ft
        (buildGenes rest wells r.2).map (fun r2 => (r.1 ++ r2.1, r2.2)))
    else buildGenes rest wells ft

/-- Embedding of `buildSequence`: decode a chromosome into the
`(Stage, fleet)` sequence, starting from `fleetTime = {"A": 0.0, "B": 0.0}`. -/
def buildSequence (chromosome : Chromosome) (wells : List Well) :
    Option (List (Stage × String)) :=
  (buildGenes chromosome wells ⟨0, 0⟩).map Prod.fst

/-- Embedding of `fitness`.  Genes' activation flags are 0/1 ints in the
source, so `sum(active for _, active in chromosome)` is the number of
active genes, `countP` here.  The float `inf` of the empty-sequence branch
is `⊤ : WithTop ℚ`; `none` is an uncaught exception from decoding or
simulation. -/
def fitness (chromosome : Chromosome) (wells : List Well) : Option (WithTop ℚ) :=
  match buildSequence chromosome wells with
  | none => none
  | some sequence =>
    if sequence.length = 0 then some ⊤
    else
      match simulate sequence with
      | none => none
      | some makespan =>
        let wellsCompleted : ℚ := chromosome.countP (fun g => g.2)
        let makespanDays := makespan / 24
        some ((makespanDays - 0.1 * wellsCompleted : ℚ) : WithTop ℚ)

/-- The deterministic core of `crossover` once the random cut is fixed:
`child = p1[:cut]`, `used = {w for w, _ in child}`, then the genes of `p2`
whose well-id is not in `used` are appended (`used` is never extended). -/
def crossoverAt (p1 p2 : Chromosome) (cut : Nat) : Chromosome :=
  let child := p1.take cut
  let used := child.map Prod.fst
  child ++ p2.filter (fun g => decide (g.1 ∉ used))

/-- Embedding of `crossover` with the value drawn by
`random.randint(1, len(p1) - 2)` made explicit: `randint(a, b)` can return
any integer with `a ≤ cut ≤ b` and raises `ValueError` when the range is
empty, so `none` is produced exactly when `cut` is not a value the call
could draw. -/
def crossover (p1 p2 : Chromosome) (cut : Int) : Option Chromosome :=
  if 1 ≤ cut ∧ cut ≤ (p1.length : Int) - 2 then some (crossoverAt p1 p2 cut.toNat)
  else none

/-- The sort key used by `optimize`: `fitness(c, wells)`.  `fitness` is
proved below (`fitness_isSome`) to be `some` whenever the chromosome's
active genes name wells of the list, which holds for every chromosome the
algorithm constructs; `getD ⊤` merely totalizes the key. -/
def fitKey (wells : List Well) (c : Chromosome) : WithTop ℚ :=
  (fitness c wells).getD ⊤

/-- Comparison of two chromosomes by their fitness key. -/
def fitLE (wells : List Well) (c1 c2 : Chromosome) : Prop :=
  fitKey wells c1 ≤ fitKey wells c2

instance (wells : List Well) : DecidableRel (fitLE wells) :=
  fun c1 c2 => inferInstanceAs (Decidable (fitKey wells c1 ≤ fitKey wells c2))

instance (wells : List Well) : IsTotal Chromosome (fitLE wells) :=
  ⟨fun c1 c2 => le_total (fitKey wells c1) (fitKey wells c2)⟩

instance (wells : List Well) : IsTrans Chromosome (fitLE wells) :=
  ⟨fun _ _ _ h1 h2 => le_trans h1 h2⟩

/-- Ascending in-place sort `population.sort(key=lambda c: fitness(c, wells))`,
modelled as an insertion sort by the same key (any stable comparison sort
produces a permutation sorted by the key, which is all the theorems use). -/
def sortByFitness (wells : List Well) (pop : List Chromosome) : List Chromosome :=
  pop.insertionSort (fitLE wells)

/-- One generation step of `optimize`: sort the population by fitness, keep
the best 10, and append this generation's offspring.  `kids` stands for the
chromosomes produced by the `while` loop (random parent sampling, crossover
and mutation); the theorems quantify over all possible `kids`. -/
def nextGenOf (wells : List Well) (kids : List Chromosome) (pop : List Chromosome) :
    List Chromosome :=
  (sortByFitness wells pop).take 10 ++ kids

/-- The generation loop of `optimize`: `offspring g` is the list of children
the randomness produces at generation `g`. -/
def gaLoop (wells : List Well) : Nat → (Nat → List Chromosome) → List Chromosome →
    List Chromosome
  | 0, _, pop => pop
  | g + 1, offspring, pop =>
    gaLoop wells g (fun i => offspring (i + 1)) (nextGenOf wells (offspring 0) pop)

/-- Python's `min(population, key=key)`: the first element attaining the
minimal key (`ValueError`, hence `none`, on an empty list). -/
def pyMinBy (key : Chromosome → WithTop ℚ) : List Chromosome → Option Chromosome
  | [] => none
  | x :: xs => some (xs.foldl (fun b y => if key y < key b then y else b) x)

/-- Embedding of `optimize` with the randomness explicit: `pop0` is the
initial random population and `offspring g` the children generated at
generation `g`; the result is `min(population, key=lambda c: fitness(c, wells))`
over the final population. -/
def optimizeGA (wells : List Well) (generations : Nat) (offspring : Nat → List Chromosome)
    (pop0 : List Chromosome) : Option Chromosome :=
  pyMinBy (fitKey wells) (gaLoop wells generations offspring pop0)

/-- Fleet names of the specification: exactly two fleets, "A" and "B". -/
inductive FleetName
  | A
  | B
deriving DecidableEq

/-- State of the specification's simulator: total maps `fleet_available`
and `well_available` (the latter "initialized to 0 lazily", i.e. every
untouched well reads 0). -/
structure SpecState where
  fleetAvail : FleetName → ℚ
  wellAvail : String → ℚ

/-- Follows the spec's words (§4.2): for each `(stage, fleet)` pair in the
given order, `start = max(fleet_available[fleet], well_available[stage.well_id])`,
`finish = start + stage.duration`, and both maps are updated to `finish`. -/
def specStep (st : SpecState) (p : Stage × FleetName) : SpecState :=
  let start := max (st.fleetAvail p.2) (st.wellAvail p.1.well_id)
  let finish := start + p.1.duration
  ⟨fun f => if f = p.2 then finish else st.fleetAvail f,
   fun w => if w = p.1.well_id then finish else st.wellAvail w⟩

/-- Follows the spec's words (§4.2): process the sequence in order from
all-zero availabilities; the makespan is `max(fleet_available.values())`. -/
def specMakespan (seq : List (Stage × FleetName)) : ℚ :=
  let st := seq.foldl specStep ⟨fun _ => 0, fun _ => 0⟩
  max (st.fleetAvail FleetName.A) (st.fleetAvail FleetName.B)

/-- Rename the string fleet names of the embedded code into the spec's
fleet names (meaningful under the hypothesis that only "A"/"B" occur). -/
def toFleetName (s : String) : FleetName :=
  if s = "A" then FleetName.A else FleetName.B

/-- A code-level sequence viewed as a spec-level sequence. -/
def specOfSeq (seq : List (Stage × String)) : List (Stage × FleetName) :=
  seq.map (fun p => (p.1, toFleetName p.2))

/-- Separation of two timeline records: the earlier record finishes no
later than the later record starts whenever they share a fleet or a well. -/
def SepRec (r1 r2 : TimelineRec) : Prop :=
  (r1.fleet = r2.fleet → r1.finish ≤ r2.start) ∧
  (r1.well_id = r2.well_id → r1.finish ≤ r2.start)

/-- Minimum fitness key over a population (⊤ for the empty population). -/
def lminKey (key : Chromosome → WithTop ℚ) (l : List Chromosome) : WithTop ℚ :=
  (l.map key).foldr min ⊤

/-! Helper lemmas. -/

theorem fleetGet_isSome (ft : FleetTime) (fleet : String) :
    (fleetGet ft fleet).isSome ↔ (fleet = "A" ∨ fleet = "B") := by
  unfold fleetGet
  by_cases h1 : fleet = "A" <;> by_cases h2 : fleet = "B" <;> simp [h1, h2]

theorem simulateAux_nil (ft : FleetTime) (wt : List (String × ℚ)) :
    simulateAux [] ft wt = some (ft, []) := rfl

theorem simulateAux_cons_A (stage : Stage) (rest : List (Stage × String))
    (ft : FleetTime) (wt : List (String × ℚ)) :
    simulateAux ((stage, "A") :: rest) ft wt =
      (simulateAux rest ⟨max ft.a (wellGet wt stage.well_id) + stage.duration, ft.b⟩
          ((stage.well_id, max ft.a (wellGet wt stage.well_id) + stage.duration) :: wt)).map
        (fun r => (r.1, ⟨stage.well_id, stage.order, "A",
          max ft.a (wellGet wt stage.well_id),
          max ft.a (wellGet wt stage.well_id) + stage.duration⟩ :: r.2)) := by
  simp [simulateAux, fleetGet, fleetSet]

theorem simulateAux_cons_B (stage : Stage) (rest : List (Stage × String))
    (ft : FleetTime) (wt : List (String × ℚ)) :
    simulateAux ((stage, "B") :: rest) ft wt =
      (simulateAux rest ⟨ft.a, max ft.b (wellGet wt stage.well_id) + stage.duration⟩
          ((stage.well_id, max ft.b (wellGet wt stage.well_id) + stage.duration) :: wt)).map
        (fun r => (r.1, ⟨stage.well_id, stage.order, "B",
          max ft.b (wellGet wt stage.well_id),
          max ft.b (wellGet wt stage.well_id) + stage.duration⟩ :: r.2)) := by
  simp [simulateAux, fleetGet, fleetSet]

theorem simulateAux_cons_bad (stage : Stage) (fleet : String)
    (rest : List (Stage × String)) (ft : FleetTime) (wt : List (String × ℚ))
    (hA : fleet ≠ "A") (hB : fleet ≠ "B") :
    simulateAux ((stage, fleet) :: rest) ft wt = none := by
  simp [simulateAux, fleetGet, hA, hB]

theorem simulateAux_isSome (seq : List (Stage × String)) : ∀ (ft : FleetTime)
    (wt : List (String × ℚ)),
    (simulateAux seq ft wt).isSome ↔ ∀ p ∈ seq, p.2 = "A" ∨ p.2 = "B" := by
  induction seq with
  | nil => intro ft wt; simp [simulateAux_nil]
  | cons p rest ih =>
    intro ft wt
    obtain ⟨stage, fleet⟩ := p
    by_cases hA : fleet = "A"
    · subst hA
      rw [simulateAux_cons_A]
      simp only [Option.isSome_map', List.mem_cons, ih]
      constructor
      · rintro h q (h1 | h1)
        · rw [h1]; exact Or.inl rfl
        · exact h q h1
      · intro h q hq; exact h q (Or.inr hq)
    · by_cases hB : fleet = "B"
      · subst hB
        rw [simulateAux_cons_B]
        simp only [Option.isSome_map', List.mem_cons, ih]
        constructor
        · rintro h q (h1 | h1)
          · rw [h1]; exact Or.inr rfl
          · exact h q h1
        · intro h q hq; exact h q (Or.inr hq)
      · rw [simulateAux_cons_bad stage fleet rest ft wt hA hB]
        simp only [Option.isSome_none, Bool.false_eq_true, false_iff]
        intro hall
        rcases hall (stage, fleet) (List.mem_cons_self _ _) with h | h
        · exact hA h
        · exact hB h

theorem simulate_isSome (seq : List (Stage × String)) :
    (simulate seq).isSome ↔ ∀ p ∈ seq, p.2 = "A" ∨ p.2 = "B" := by
  rw [← simulateAux_isSome seq ⟨0, 0⟩ []]
  unfold simulate
  cases simulateAux seq ⟨0, 0⟩ [] <;> simp

theorem bestFleet_mem (stage : Stage) (ft : FleetTime) :
    bestFleet stage ft = "A" ∨ bestFleet stage ft = "B" := by
  unfold bestFleet
  split <;> simp

theorem buildStages_fleets : ∀ (stages : List Stage) (ft : FleetTime),
    ∀ p ∈ (buildStages stages ft).1, p.2 = "A" ∨ p.2 = "B"
  | [], _ => by simp [buildStages]
  | stage :: rest, ft => by
    unfold buildStages
    by_cases hc : stage.completed
    · simp only [if_pos hc]
      exact buildStages_fleets rest ft
    · simp only [if_neg hc, List.mem_cons]
      intro p hp
      rcases hp with h | h
      · rw [h]; exact bestFleet_mem stage ft
      · exact buildStages_fleets rest _ p h

theorem buildGenes_fleets : ∀ (c : Chromosome) (wells : List Well) (ft : FleetTime)
    (r : List (Stage × String) × FleetTime), buildGenes c wells ft = some r →
    ∀ p ∈ r.1, p.2 = "A" ∨ p.2 = "B"
  | [], _, _, r => by
    intro h
    simp only [buildGenes, Option.some.injEq] at h
    rw [← h]
    simp
  | (wid, active) :: rest, wells, ft, r => by
    intro h
    by_cases ha : active
    · simp only [buildGenes, if_pos ha, Option.bind_eq_some, Option.map_eq_some'] at h
      obtain ⟨w, _, r2, hr2, hmap⟩ := h
      rw [← hmap]
      intro p hp
      simp only [List.mem_append] at hp
      rcases hp with hp | hp
      · exact buildStages_fleets w.stages ft p hp
      · exact buildGenes_fleets rest wells _ r2 hr2 p hp
    · simp only [buildGenes, if_neg ha] at h
      exact buildGenes_fleets rest wells ft r h

theorem buildSequence_fleets (c : Chromosome) (wells : List Well)
    (seq : List (Stage × String)) (h : buildSequence c wells = some seq) :
    ∀ p ∈ seq, p.2 = "A" ∨ p.2 = "B" := by
  unfold buildSequence at h
  cases hg : buildGenes c wells ⟨0, 0⟩ with
  | none => rw [hg] at h; exact absurd h (by simp)
  | some r =>
    rw [hg] at h
    simp only [Option.map_some', Option.some.injEq] at h
    rw [← h]
    exact buildGenes_fleets c wells ⟨0, 0⟩ r hg

theorem wellFind_isSome : ∀ (wells : List Well) (wid : String),
    (wellFind wells wid).isSome ↔ ∃ w ∈ wells, w.well_id = wid
  | [], wid => by simp [wellFind]
  | w :: rest, wid => by
    simp only [wellFind, List.mem_cons]
    cases hr : wellFind rest wid with
    | some r =>
      have := (wellFind_isSome rest wid).mp (by rw [hr]; simp)
      simp only [Option.isSome_some, true_iff]
      obtain ⟨x, hx, hxid⟩ := this
      exact ⟨x, Or.inr hx, hxid⟩
    | none =>
      have hnone : ¬∃ x ∈ rest, x.well_id = wid := by
        rw [← wellFind_isSome rest wid, hr]; simp
      by_cases hw : w.well_id = wid
      · simp only [if_pos hw, Option.isSome_some, true_iff]
        exact ⟨w, Or.inl rfl, hw⟩
      · simp only [if_neg hw, Option.isSome_none]
        constructor
        · intro h; exact absurd h (by simp)
        · rintro ⟨x, hx | hx, hxid⟩
          · exact absurd (hx ▸ hxid) hw
          · exact absurd ⟨x, hx, hxid⟩ hnone

theorem wellGet_cons (k : String) (v : ℚ) (wt : List (String × ℚ)) (w : String) :
    wellGet ((k, v) :: wt) w = if k = w then v else wellGet wt w := rfl

theorem simulateAux_sep (seq : List (Stage × String)) : ∀ (ft : FleetTime)
    (wt : List (String × ℚ)),
    (∀ p ∈ seq, 0 < p.1.duration ∧ (p.2 = "A" ∨ p.2 = "B")) →
    ∃ ftEnd tl, simulateAux seq ft wt = some (ftEnd, tl) ∧
      List.Pairwise SepRec tl ∧
      (∀ r ∈ tl, (r.fleet = "A" → ft.a ≤ r.start) ∧ (r.fleet = "B" → ft.b ≤ r.start) ∧
        wellGet wt r.well_id ≤ r.start ∧ r.start < r.finish) := by
  induction seq with
  | nil =>
    intro ft wt _
    exact ⟨ft, [], rfl, List.Pairwise.nil, by simp⟩
  | cons p rest ih =>
    intro ft wt h
    obtain ⟨stage, fleet⟩ := p
    have hd : 0 < stage.duration := (h (stage, fleet) (List.mem_cons_self _ _)).1
    have hrest : ∀ q ∈ rest, 0 < q.1.duration ∧ (q.2 = "A" ∨ q.2 = "B") :=
      fun q hq => h q (List.mem_cons_of_mem _ hq)
    rcases (h (stage, fleet) (List.mem_cons_self _ _)).2 with hfl | hfl
    · subst hfl
      obtain ⟨ftEnd, tl, htl, hpair, hdom⟩ :=
        ih ⟨max ft.a (wellGet wt stage.well_id) + stage.duration, ft.b⟩
          ((stage.well_id, max ft.a (wellGet wt stage.well_id) + stage.duration) :: wt) hrest
      refine ⟨ftEnd, ⟨stage.well_id, stage.order, "A",
        max ft.a (wellGet wt stage.well_id),
        max ft.a (wellGet wt stage.well_id) + stage.duration⟩ :: tl, ?_, ?_, ?_⟩
      · rw [simulateAux_cons_A, htl]; rfl
      · refine List.Pairwise.cons ?_ hpair
        intro r hr
        constructor
        · intro hfleet
          have := (hdom r hr).1 hfleet.symm
          exact this
        · intro hwell
          have := (hdom r hr).2.2.1
          rw [wellGet_cons, if_pos hwell] at this
          exact this
      · intro r hr
        rcases List.mem_cons.mp hr with hr | hr
        · subst hr
          refine ⟨fun _ => le_max_left _ _, fun hab => absurd hab (by simp),
            le_max_right _ _, lt_add_of_pos_right _ hd⟩
        · have h1 := (hdom r hr).1
          have h2 := (hdom r hr).2.1
          have h3 := (hdom r hr).2.2.1
          have h4 := (hdom r hr).2.2.2
          have hstep : max ft.a (wellGet wt stage.well_id) ≤
              max ft.a (wellGet wt stage.well_id) + stage.duration :=
            le_of_lt (lt_add_of_pos_right _ hd)
          refine ⟨?_, h2, ?_, h4⟩
          · intro hfA
            exact le_trans (le_trans (le_max_left _ _) hstep) (h1 hfA)
          · rw [wellGet_cons] at h3
            by_cases heq : stage.well_id = r.well_id
            · rw [if_pos heq] at h3
              rw [← heq]
              exact le_trans (le_trans (le_max_right _ _) hstep) h3
            · rwa [if_neg heq] at h3
    · subst hfl
      obtain ⟨ftEnd, tl, htl, hpair, hdom⟩ :=
        ih ⟨ft.a, max ft.b (wellGet wt stage.well_id) + stage.duration⟩
          ((stage.well_id, max ft.b (wellGet wt stage.well_id) + stage.duration) :: wt) hrest
      refine ⟨ftEnd, ⟨stage.well_id, stage.order, "B",
        max ft.b (wellGet wt stage.well_id),
        max ft.b (wellGet wt stage.well_id) + stage.duration⟩ :: tl, ?_, ?_, ?_⟩
      · rw [simulateAux_cons_B, htl]; rfl
      · refine List.Pairwise.cons ?_ hpair
        intro r hr
        constructor
        · intro hfleet
          have := (hdom r hr).2.1 hfleet.symm
          exact this
        · intro hwell
          have := (hdom r hr).2.2.1
          rw [wellGet_cons, if_pos hwell] at this
          exact this
      · intro r hr
        rcases List.mem_cons.mp hr with hr | hr
        · subst hr
          refine ⟨fun hab => absurd hab (by simp), fun _ => le_max_left _ _,
            le_max_right _ _, lt_add_of_pos_right _ hd⟩
        · have h1 := (hdom r hr).1
          have h2 := (hdom r hr).2.1
          have h3 := (hdom r hr).2.2.1
          have h4 := (hdom r hr).2.2.2
          have hstep : max ft.b (wellGet wt stage.well_id) ≤
              max ft.b (wellGet wt stage.well_id) + stage.duration :=
            le_of_lt (lt_add_of_pos_right _ hd)
          refine ⟨h1, ?_, ?_, h4⟩
          · intro hfB
            exact le_trans (le_trans (le_max_left _ _) hstep) (h2 hfB)
          · rw [wellGet_cons] at h3
            by_cases heq : stage.well_id = r.well_id
            · rw [if_pos heq] at h3
              rw [← heq]
              exact le_trans (le_trans (le_max_right _ _) hstep) h3
            · rwa [if_neg heq] at h3

theorem buildGenes_isSome : ∀ (c : Chromosome) (wells : List Well) (ft : FleetTime),
    (∀ g ∈ c, g.2 = true → ∃ w ∈ wells, w.well_id = g.1) →
    (buildGenes c wells ft).isSome
  | [], _, _ => by simp [buildGenes]
  | (wid, active) :: rest, wells, ft => by
    intro hw
    by_cases ha : active
    · simp only [buildGenes, if_pos ha]
      have hwid : ∃ w ∈ wells, w.well_id = wid :=
        hw (wid, active) (List.mem_cons_self _ _) (by simpa using ha)
      rw [← wellFind_isSome wells wid] at hwid
      obtain ⟨w, hfind⟩ := Option.isSome_iff_exists.mp hwid
      rw [hfind]
      have ih := buildGenes_isSome rest wells (buildStages w.stages ft).2
        (fun g hg => hw g (List.mem_cons_of_mem _ hg))
      obtain ⟨r2, hr2⟩ := Option.isSome_iff_exists.mp ih
      simp [hr2]
    · simp only [buildGenes, if_neg ha]
      exact buildGenes_isSome rest wells ft (fun g hg => hw g (List.mem_cons_of_mem _ hg))

theorem simulateAux_spec (seq : List (Stage × String)) : ∀ (ft : FleetTime)
    (wt : List (String × ℚ)) (st : SpecState),
    (∀ p ∈ seq, p.2 = "A" ∨ p.2 = "B") →
    ft.a = st.fleetAvail FleetName.A → ft.b = st.fleetAvail FleetName.B →
    (∀ w, wellGet wt w = st.wellAvail w) →
    ∃ r, simulateAux seq ft wt = some r ∧
      r.1.a = (List.foldl specStep st (specOfSeq seq)).fleetAvail FleetName.A ∧
      r.1.b = (List.foldl specStep st (specOfSeq seq)).fleetAvail FleetName.B := by
  induction seq with
  | nil =>
    intro ft wt st _ ha hb _
    exact ⟨(ft, []), rfl, ha, hb⟩
  | cons p rest ih =>
    intro ft wt st h ha hb hw
    obtain ⟨stage, fleet⟩ := p
    have hrest : ∀ q ∈ rest, q.2 = "A" ∨ q.2 = "B" :=
      fun q hq => h q (List.mem_cons_of_mem _ hq)
    rcases h (stage, fleet) (List.mem_cons_self _ _) with hfl | hfl
    · subst hfl
      have hstart : max ft.a (wellGet wt stage.well_id) =
          max (st.fleetAvail FleetName.A) (st.wellAvail stage.well_id) := by
        rw [ha, hw]
      obtain ⟨r, hr, hra, hrb⟩ :=
        ih ⟨max ft.a (wellGet wt stage.well_id) + stage.duration, ft.b⟩
          ((stage.well_id, max ft.a (wellGet wt stage.well_id) + stage.duration) :: wt)
          (specStep st (stage, FleetName.A)) hrest
          (by simp only [specStep, hstart]; simp)
          (by simp only [specStep, hstart]; simp [hb])
          (by
            intro w
            rw [wellGet_cons]
            simp only [specStep, hstart]
            by_cases heq : stage.well_id = w
            · simp [heq]
            · simp only [if_neg heq, hw]
              have : ¬w = stage.well_id := fun hww => heq hww.symm
              simp [this])
      refine ⟨(r.1, ⟨stage.well_id, stage.order, "A",
        max ft.a (wellGet wt stage.well_id),
        max ft.a (wellGet wt stage.well_id) + stage.duration⟩ :: r.2), ?_, ?_, ?_⟩
      · rw [simulateAux_cons_A, hr]; rfl
      · simpa [specOfSeq, toFleetName] using hra
      · simpa [specOfSeq, toFleetName] using hrb
    · subst hfl
      have hstart : max ft.b (wellGet wt stage.well_id) =
          max (st.fleetAvail FleetName.B) (st.wellAvail stage.well_id) := by
        rw [hb, hw]
      obtain ⟨r, hr, hra, hrb⟩ :=
        ih ⟨ft.a, max ft.b (wellGet wt stage.well_id) + stage.duration⟩
          ((stage.well_id, max ft.b (wellGet wt stage.well_id) + stage.duration) :: wt)
          (specStep st (stage, FleetName.B)) hrest
          (by simp only [specStep, hstart]; simp [ha])
          (by simp only [specStep, hstart]; simp)
          (by
            intro w
            rw [wellGet_cons]
            simp only [specStep, hstart]
            by_cases heq : stage.well_id = w
            · simp [heq]
            · simp only [if_neg heq, hw]
              have : ¬w = stage.well_id := fun hww => heq hww.symm
              simp [this])
      refine ⟨(r.1, ⟨stage.well_id, stage.order, "B",
        max ft.b (wellGet wt stage.well_id),
        max ft.b (wellGet wt stage.well_id) + stage.duration⟩ :: r.2), ?_, ?_, ?_⟩
      · rw [simulateAux_cons_B, hr]; rfl
      · simpa [specOfSeq, toFleetName] using hra
      · simpa [specOfSeq, toFleetName] using hrb

theorem lminKey_nil (key : Chromosome → WithTop ℚ) : lminKey key [] = ⊤ := rfl

theorem lminKey_cons (key : Chromosome → WithTop ℚ) (y : Chromosome)
    (ys : List Chromosome) : lminKey key (y :: ys) = min (key y) (lminKey key ys) := rfl

theorem lminKey_le (key : Chromosome → WithTop ℚ) : ∀ (l : List Chromosome)
    (x : Chromosome), x ∈ l → lminKey key l ≤ key x
  | [], x => by simp
  | y :: ys, x => by
    intro hx
    rw [lminKey_cons]
    rcases List.mem_cons.mp hx with h | h
    · subst h; exact min_le_left _ _
    · exact le_trans (min_le_right _ _) (lminKey_le key ys x h)

theorem lminKey_attained (key : Chromosome → WithTop ℚ) : ∀ (l : List Chromosome),
    l ≠ [] → ∃ x ∈ l, key x ≤ lminKey key l
  | [], h => absurd rfl h
  | y :: ys, _ => by
    by_cases hys : ys = []
    · subst hys
      refine ⟨y, List.mem_cons_self _ _, ?_⟩
      rw [lminKey_cons, lminKey_nil]
      exact le_min (le_refl _) le_top
    · obtain ⟨x, hx, hkx⟩ := lminKey_attained key ys hys
      rw [lminKey_cons]
      rcases le_total (key y) (lminKey key ys) with hle | hle
      · exact ⟨y, List.mem_cons_self _ _, by rw [min_eq_left hle]⟩
      · refine ⟨x, List.mem_cons_of_mem _ hx, ?_⟩
        rw [min_eq_right hle]
        exact hkx

theorem pyMinBy_foldl_le (key : Chromosome → WithTop ℚ) : ∀ (xs : List Chromosome)
    (b : Chromosome),
    key (xs.foldl (fun b y => if key y < key b then y else b) b) ≤ key b ∧
    ∀ y ∈ xs, key (xs.foldl (fun b y => if key y < key b then y else b) b) ≤ key y
  | [], b => ⟨le_refl _, by simp⟩
  | y :: ys, b => by
    have hsel : key (if key y < key b then y else b) ≤ key b ∧
        key (if key y < key b then y else b) ≤ key y := by
      by_cases h : key y < key b
      · rw [if_pos h]; exact ⟨le_of_lt h, le_refl _⟩
      · rw [if_neg h]; exact ⟨le_refl _, le_of_not_lt h⟩
    obtain ⟨ih1, ih2⟩ := pyMinBy_foldl_le key ys (if key y < key b then y else b)
    simp only [List.foldl_cons]
    refine ⟨le_trans ih1 hsel.1, ?_⟩
    intro z hz
    rcases List.mem_cons.mp hz with h | h
    · subst h; exact le_trans ih1 hsel.2
    · exact ih2 z h

theorem pyMinBy_foldl_mem (key : Chromosome → WithTop ℚ) : ∀ (xs : List Chromosome)
    (b : Chromosome),
    xs.foldl (fun b y => if key y < key b then y else b) b = b ∨
    xs.foldl (fun b y => if key y < key b then y else b) b ∈ xs
  | [], _ => Or.inl rfl
  | y :: ys, b => by
    simp only [List.foldl_cons]
    rcases pyMinBy_foldl_mem key ys (if key y < key b then y else b) with h | h
    · rw [h]
      by_cases hc : key y < key b
      · rw [if_pos hc]; exact Or.inr (List.mem_cons_self _ _)
      · rw [if_neg hc]; exact Or.inl rfl
    · exact Or.inr (List.mem_cons_of_mem _ h)

theorem pyMinBy_le (key : Chromosome → WithTop ℚ) (l : List Chromosome)
    (m : Chromosome) (h : pyMinBy key l = some m) : ∀ y ∈ l, key m ≤ key y := by
  cases l with
  | nil => simp [pyMinBy] at h
  | cons x xs =>
    simp only [pyMinBy, Option.some.injEq] at h
    intro y hy
    rcases List.mem_cons.mp hy with h1 | h1
    · subst h1
      rw [← h]
      exact (pyMinBy_foldl_le key xs y).1
    · rw [← h]
      exact (pyMinBy_foldl_le key xs x).2 y h1

theorem pyMinBy_mem (key : Chromosome → WithTop ℚ) (l : List Chromosome)
    (m : Chromosome) (h : pyMinBy key l = some m) : m ∈ l := by
  cases l with
  | nil => simp [pyMinBy] at h
  | cons x xs =>
    simp only [pyMinBy, Option.some.injEq] at h
    rcases pyMinBy_foldl_mem key xs x with h1 | h1
    · rw [← h, h1]; exact List.mem_cons_self _ _
    · rw [← h]; exact List.mem_cons_of_mem _ h1

theorem pyMinBy_ne_nil (key : Chromosome → WithTop ℚ) (l : List Chromosome)
    (m : Chromosome) (h : pyMinBy key l = some m) : l ≠ [] := by
  intro he
  subst he
  simp [pyMinBy] at h

theorem nextGenOf_lmin (wells : List Well) (kids : List Chromosome)
    (pop : List Chromosome) (hne : pop ≠ []) :
    nextGenOf wells kids pop ≠ [] ∧
    lminKey (fitKey wells) (nextGenOf wells kids pop) ≤ lminKey (fitKey wells) pop := by
  have hperm : List.Perm (sortByFitness wells pop) pop := List.perm_insertionSort _ _
  have hsne : sortByFitness wells pop ≠ [] := by
    intro he
    rw [he] at hperm
    exact hne hperm.symm.eq_nil
  obtain ⟨h, t, he⟩ : ∃ h t, sortByFitness wells pop = h :: t := by
    cases hs : sortByFitness wells pop with
    | nil => exact absurd hs hsne
    | cons h t => exact ⟨h, t, rfl⟩
  have hsorted : List.Sorted (fitLE wells) (sortByFitness wells pop) :=
    List.sorted_insertionSort _ _
  rw [he] at hsorted
  have hhead : ∀ y ∈ pop, fitKey wells h ≤ fitKey wells y := by
    intro y hy
    have hy2 : y ∈ h :: t := by
      rw [← he]
      exact hperm.symm.subset hy
    rcases List.mem_cons.mp hy2 with h1 | h1
    · subst h1; exact le_refl _
    · exact List.rel_of_sorted_cons hsorted y h1
  have htake : (h :: t).take 10 = h :: t.take 9 := rfl
  have hmem : h ∈ nextGenOf wells kids pop := by
    unfold nextGenOf
    rw [he, htake]
    exact List.mem_append_left _ (List.mem_cons_self _ _)
  refine ⟨List.ne_nil_of_mem hmem, ?_⟩
  have h1 : lminKey (fitKey wells) (nextGenOf wells kids pop) ≤ fitKey wells h :=
    lminKey_le _ _ h hmem
  obtain ⟨x, hx, hkx⟩ := lminKey_attained (fitKey wells) pop hne
  exact le_trans h1 (le_trans (hhead x hx) hkx)

theorem gaLoop_lmin (wells : List Well) : ∀ (g : Nat) (offspring : Nat → List Chromosome)
    (pop : List Chromosome), pop ≠ [] →
    gaLoop wells g offspring pop ≠ [] ∧
    lminKey (fitKey wells) (gaLoop wells g offspring pop) ≤ lminKey (fitKey wells) pop
  | 0, _, pop, h => ⟨h, le_refl _⟩
  | g + 1, offspring, pop, h => by
    have hstep := nextGenOf_lmin wells (offspring 0) pop h
    have ih := gaLoop_lmin wells g (fun i => offspring (i + 1))
      (nextGenOf wells (offspring 0) pop) hstep.1
    exact ⟨ih.1, le_trans ih.2 hstep.2⟩

/-! Claim theorems. -/

/-- C1 (code bug): the claim (and `bestFleet`'s own docstring) says a stage
goes to the fleet with the EARLIER running `fleet_time`, ties to "A".  The
code returns "A" whenever `fleetTime["A"] >= fleetTime["B"]`, i.e. the
fleet with the LATER time.  At `fleetTime = {"A": 1.0, "B": 0.0}` fleet "B"
is strictly earlier yet "A" is returned; consequently, decoding a well of
two 1-hour stages routes BOTH stages to fleet "A" (fleet "A"'s running
time only ever grows while "B" stays at 0, so every stage of every active
well lands on "A"), where the claimed policy would send the second stage
to "B". -/
theorem c1_greedy_assigns_later_fleet :
    ((0 : ℚ) < 1 ∧ bestFleet ⟨1, "W", 1, 1, false, 0, 0⟩ ⟨1, 0⟩ = "A") ∧
    buildSequence [("W", true)]
        [⟨"W", "JM", [⟨0, "W", 0, 1, false, 0, 0⟩, ⟨1, "W", 1, 1, false, 0, 0⟩]⟩] =
      some [(⟨0, "W", 0, 1, false, 0, 0⟩, "A"), (⟨1, "W", 1, 1, false, 0, 0⟩, "A")] := by
  refine ⟨⟨by norm_num, by norm_num [bestFleet]⟩, ?_⟩
  norm_num [buildSequence, buildGenes, wellFind, buildStages, bestFleet, fleetAdd]

/-- C6 counterexample: the claim says the estimator fails whenever
`rate ≤ 0`, but at `rate = -1, volume = 100` the code performs no
validation and returns a value. -/
theorem c6_counterexample :
    (-1 : ℚ) ≤ 0 ∧ (calculate_stage_duration (-1) 100 "JM").isSome = true := by
  constructor
  · norm_num
  · norm_num [calculate_stage_duration]

/-- C6 (amended): the duration estimator performs no input validation and
raises no `InvalidInputError`; it fails only by division by zero, i.e.
exactly when `rate = 0`; negative rates or volumes are accepted. -/
theorem c6_fails_iff_rate_zero (rate cvol : ℚ) (formation : String) :
    calculate_stage_duration rate cvol formation = none ↔ rate = 0 := by
  have h60 : rate * 60 = 0 ↔ rate = 0 := by
    constructor
    · intro h
      rcases mul_eq_zero.mp h with h | h
      · exact h
      · norm_num at h
    · intro h
      rw [h, zero_mul]
  unfold calculate_stage_duration
  by_cases h : rate * 60 = 0
  · rw [if_pos h]
    simp [h60.mp h]
  · rw [if_neg h]
    constructor
    · intro hc
      exact absurd hc (by simp)
    · intro hr
      exact absurd (h60.mpr hr) h

/-- C6 witness: at `rate = 0` the estimator fails, at `rate = 1` it does
not. -/
theorem c6_witness :
    calculate_stage_duration 0 100 "JM" = none ∧
    ¬calculate_stage_duration 1 100 "JM" = none :=
  ⟨(c6_fails_iff_rate_zero 0 100 "JM").mpr rfl,
   fun h => absurd ((c6_fails_iff_rate_zero 1 100 "JM").mp h) (by norm_num)⟩

/-- C7: for positive rate the estimated duration is
`(fluid_volume / (rate * 60)) * formation_factor + 0.25` hours (0.25 h =
15 min fixed non-pumping overhead), with factors JM 1.00, DEAN 1.05,
LSS 1.10, WCA 1.15, WCB 1.20, WCD 1.25 and 1.10 for any other label. -/
theorem c7_duration_formula (rate cvol : ℚ) (formation : String) (h : 0 < rate) :
    calculate_stage_duration rate cvol formation =
      some (cvol / (rate * 60) * formationFactor formation + 0.25) ∧
    formationFactor "JM" = 1.00 ∧ formationFactor "DEAN" = 1.05 ∧
    formationFactor "LSS" = 1.10 ∧ formationFactor "WCA" = 1.15 ∧
    formationFactor "WCB" = 1.20 ∧ formationFactor "WCD" = 1.25 ∧
    (∀ f, f ≠ "JM" → f ≠ "DEAN" → f ≠ "LSS" → f ≠ "WCA" → f ≠ "WCB" → f ≠ "WCD" →
      formationFactor f = 1.10) := by
  refine ⟨?_, rfl, rfl, rfl, rfl, rfl, rfl, ?_⟩
  · unfold calculate_stage_duration
    rw [if_neg (mul_pos h (by norm_num)).ne']
    norm_num
  · intro f h1 h2 h3 h4 h5 h6
    simp [formationFactor, h1, h2, h3, h4, h5, h6]

/-- C7 witness: a concrete instance (rate 10 bpm, 600 bbl, formation JM). -/
theorem c7_witness :
    (0 : ℚ) < 10 ∧ calculate_stage_duration 10 600 "JM" =
      some (600 / (10 * 60) * formationFactor "JM" + 0.25) :=
  ⟨by norm_num, (c7_duration_formula 10 600 "JM" (by norm_num)).1⟩

/-- C9: `crossover` draws `cut` from `randint(1, len(p1) - 2)`, so it can
return a child exactly for cut points with `1 ≤ cut ≤ len(p1) - 2`; for a
parent of length < 3 that range is empty (`randint` raises `ValueError`)
and no call returns a child, while length ≥ 3 admits a successful cut. -/
theorem c9_crossover_cut_range (p1 p2 : Chromosome) :
    (∀ cut : Int, (crossover p1 p2 cut).isSome ↔
      (1 ≤ cut ∧ cut ≤ (p1.length : Int) - 2)) ∧
    (p1.length < 3 → ∀ cut : Int, crossover p1 p2 cut = none) ∧
    (3 ≤ p1.length → ∃ cut : Int, (crossover p1 p2 cut).isSome) := by
  have hiff : ∀ cut : Int, (crossover p1 p2 cut).isSome ↔
      (1 ≤ cut ∧ cut ≤ (p1.length : Int) - 2) := by
    intro cut
    unfold crossover
    by_cases h : 1 ≤ cut ∧ cut ≤ (p1.length : Int) - 2
    · rw [if_pos h]
      simpa using h
    · rw [if_neg h]
      simpa using h
  refine ⟨hiff, ?_, ?_⟩
  · intro hlen cut
    cases hc : crossover p1 p2 cut with
    | none => rfl
    | some ch =>
      have hs : (crossover p1 p2 cut).isSome := by rw [hc]; rfl
      obtain ⟨hg1, hg2⟩ := (hiff cut).mp hs
      omega
  · intro hlen
    exact ⟨1, (hiff 1).mpr ⟨le_refl 1, by omega⟩⟩

/-- C9 witness: a two-gene parent makes every call fail; a three-gene
parent admits a successful cut. -/
theorem c9_witness :
    crossover [("a", true), ("b", true)] [("a", true), ("b", true)] 1 = none ∧
    ∃ cut : Int, (crossover [("a", true), ("b", true), ("c", true)]
      [("a", true), ("b", true), ("c", true)] cut).isSome :=
  ⟨(c9_crossover_cut_range [("a", true), ("b", true)] _).2.1 (by decide) 1,
   (c9_crossover_cut_range [("a", true), ("b", true), ("c", true)] _).2.2 (by decide)⟩

/-- C10: `simulate` returns a makespan exactly when every pair's fleet
name is "A" or "B" (any other name hits a `KeyError` on `fleetTime[fleet]`);
`bestFleet` only ever returns "A" or "B", and consequently every sequence
the decoder `buildSequence` produces satisfies the precondition. -/
theorem c10_fleet_names (seq : List (Stage × String)) (c : Chromosome)
    (wells : List Well) (sq : List (Stage × String))
    (hbs : buildSequence c wells = some sq) :
    ((simulate seq).isSome ↔ ∀ p ∈ seq, p.2 = "A" ∨ p.2 = "B") ∧
    (∀ stage ft, bestFleet stage ft = "A" ∨ bestFleet stage ft = "B") ∧
    (∀ p ∈ sq, p.2 = "A" ∨ p.2 = "B") :=
  ⟨simulate_isSome seq, bestFleet_mem, buildSequence_fleets c wells sq hbs⟩

/-- C10 witness: a sequence naming fleet "C" makes `simulate` fail. -/
theorem c10_witness :
    (simulate [((⟨0, "W", 0, 1, false, 0, 0⟩ : Stage), "C")]).isSome = false := by
  have h := (c10_fleet_names [((⟨0, "W", 0, 1, false, 0, 0⟩ : Stage), "C")]
    [] [] [] rfl).1
  rw [Bool.eq_false_iff]
  intro hs
  have h2 := h.mp hs ((⟨0, "W", 0, 1, false, 0, 0⟩ : Stage), "C")
    (List.mem_cons_self _ _)
  simp at h2

/-- C2: for every sequence whose fleet names are in {"A", "B"}, the
makespan computed by `simulate` coincides with the specification's
simulator (`specMakespan`, written from the spec's words): the pairs are
processed in the given order, each start is the max of fleet and well
availability (both initially 0), each finish is start plus duration, both
availabilities move to the finish, and the makespan is the max of the two
final fleet availabilities; the empty sequence yields makespan 0. -/
theorem c2_simulate_refines_spec (seq : List (Stage × String))
    (h : ∀ p ∈ seq, p.2 = "A" ∨ p.2 = "B") :
    simulate seq = some (specMakespan (specOfSeq seq)) ∧
    simulate [] = some (0 : ℚ) := by
  constructor
  · obtain ⟨r, hr, hra, hrb⟩ := simulateAux_spec seq ⟨0, 0⟩ []
      ⟨fun _ => 0, fun _ => 0⟩ h rfl rfl (fun _ => rfl)
    unfold simulate specMakespan
    rw [hr]
    simp [Option.map_some', hra, hrb]
  · rfl

/-- C2 witness: a concrete two-stage sequence on both fleets. -/
theorem c2_witness :
    simulate [((⟨0, "W", 0, 1, false, 0, 0⟩ : Stage), "A"),
              ((⟨1, "W", 1, 1, false, 0, 0⟩ : Stage), "B")] =
      some (specMakespan (specOfSeq [((⟨0, "W", 0, 1, false, 0, 0⟩ : Stage), "A"),
              ((⟨1, "W", 1, 1, false, 0, 0⟩ : Stage), "B")])) ∧
    simulate [] = some (0 : ℚ) :=
  c2_simulate_refines_spec _ (by simp)

/-- C3: whenever every active gene names a well of the list (otherwise the
Python code raises `KeyError`), `fitness` returns `+infinity` exactly when
the decoded sequence is empty, and otherwise returns the simulated makespan
divided by 24 (days) minus 0.1 times the number of active genes. -/
theorem c3_fitness_formula (c : Chromosome) (wells : List Well)
    (hw : ∀ g ∈ c, g.2 = true → ∃ w ∈ wells, w.well_id = g.1) :
    ∃ seq, buildSequence c wells = some seq ∧
      (fitness c wells = some ⊤ ↔ seq = []) ∧
      (seq ≠ [] → ∃ m, simulate seq = some m ∧
        fitness c wells =
          some ((m / 24 - 0.1 * (c.countP (fun g => g.2) : ℚ) : ℚ) : WithTop ℚ)) := by
  have hbg := buildGenes_isSome c wells ⟨0, 0⟩ hw
  obtain ⟨r, hr⟩ := Option.isSome_iff_exists.mp hbg
  have hbs : buildSequence c wells = some r.1 := by
    unfold buildSequence
    rw [hr]
    rfl
  have hfit : fitness c wells =
      (if r.1.length = 0 then some ⊤
       else match simulate r.1 with
            | none => none
            | some makespan =>
              some ((makespan / 24 - 0.1 * (c.countP (fun g => g.2) : ℚ) : ℚ) : WithTop ℚ)) := by
    unfold fitness
    rw [hbs]
  refine ⟨r.1, hbs, ?_, ?_⟩
  · by_cases hnil : r.1 = []
    · rw [hnil] at hfit
      simp only [List.length_nil, if_pos] at hfit
      exact ⟨fun _ => hnil, fun _ => hfit⟩
    · have hlen : r.1.length ≠ 0 := fun h0 => hnil (List.length_eq_zero.mp h0)
      rw [if_neg hlen] at hfit
      have hsim : (simulate r.1).isSome :=
        (simulate_isSome r.1).mpr (buildSequence_fleets c wells r.1 hbs)
      obtain ⟨m, hm⟩ := Option.isSome_iff_exists.mp hsim
      rw [hm] at hfit
      constructor
      · intro htop
        rw [hfit] at htop
        have := Option.some.inj htop
        exact absurd this (WithTop.coe_ne_top)
      · intro h0
        exact absurd h0 hnil
  · intro hnil
    have hlen : r.1.length ≠ 0 := fun h0 => hnil (List.length_eq_zero.mp h0)
    rw [if_neg hlen] at hfit
    have hsim : (simulate r.1).isSome :=
      (simulate_isSome r.1).mpr (buildSequence_fleets c wells r.1 hbs)
    obtain ⟨m, hm⟩ := Option.isSome_iff_exists.mp hsim
    rw [hm] at hfit
    exact ⟨m, hm, hfit⟩

/-- C3 witness: a chromosome whose single gene is inactive decodes to the
empty sequence and gets fitness `+infinity`. -/
theorem c3_witness : fitness [("W", false)] [] = some ⊤ := by
  obtain ⟨seq, hseq, hiff, _⟩ := c3_fitness_formula [("W", false)] [] (by simp)
  have h0 : buildSequence [("W", false)] [] = some [] := rfl
  rw [hseq] at h0
  exact hiff.mpr (Option.some.inj h0)

/-- C8: for sequences with positive durations and fleet names in
{"A", "B"}, the timeline the simulator computes is pairwise separated
(`SepRec`): of any two records sharing a fleet or sharing a well, the
earlier finishes no later than the later starts — so same-fleet
`[start, finish)` intervals never overlap and a well's later-executed
stage never starts before the finish of its previously executed stage —
and every interval is non-degenerate (`start < finish`). -/
theorem c8_no_overlap (seq : List (Stage × String))
    (h : ∀ p ∈ seq, 0 < p.1.duration ∧ (p.2 = "A" ∨ p.2 = "B")) :
    ∃ ftEnd tl, simulateAux seq ⟨0, 0⟩ [] = some (ftEnd, tl) ∧
      List.Pairwise SepRec tl ∧ ∀ r ∈ tl, r.start < r.finish := by
  obtain ⟨ftEnd, tl, htl, hpair, hdom⟩ := simulateAux_sep seq ⟨0, 0⟩ [] h
  exact ⟨ftEnd, tl, htl, hpair, fun r hr => (hdom r hr).2.2.2⟩

/-- C8 witness: the invariant applies to a concrete two-stage sequence. -/
theorem c8_witness :
    (simulateAux [((⟨0, "W", 0, 1, false, 0, 0⟩ : Stage), "A"),
                  ((⟨1, "W", 1, 1, false, 0, 0⟩ : Stage), "A")] ⟨0, 0⟩ []).isSome = true := by
  obtain ⟨ftEnd, tl, htl, _, _⟩ := c8_no_overlap
    [((⟨0, "W", 0, 1, false, 0, 0⟩ : Stage), "A"),
     ((⟨1, "W", 1, 1, false, 0, 0⟩ : Stage), "A")] (by norm_num)
  rw [htl]
  rfl

/-- C5 counterexample: `crossover` only re-adds dropped wells from parent 2,
so a well of parent 1 after the cut that parent 2 lacks is lost.  With
`p1 = [a, b, c]`, `p2 = [a, d, e]` (both duplicate-free) and the admissible
cut 1, well "b" is in the parents' union but absent from the child. -/
theorem c5_counterexample :
    (([("a", true), ("b", true), ("c", true)] : Chromosome).map Prod.fst).Nodup ∧
    (([("a", true), ("d", true), ("e", true)] : Chromosome).map Prod.fst).Nodup ∧
    (1 : Nat) ≤ 1 ∧
    1 ≤ ([("a", true), ("b", true), ("c", true)] : Chromosome).length - 2 ∧
    "b" ∈ ([("a", true), ("b", true), ("c", true)] : Chromosome).map Prod.fst ∧
    "b" ∉ (crossoverAt [("a", true), ("b", true), ("c", true)]
        [("a", true), ("d", true), ("e", true)] 1).map Prod.fst := by
  decide

/-- C5 (amended): when the two parents additionally have the SAME well-id
set (the data-model invariant: one gene per well of the pad), the child of
`crossover` at any admissible cut contains exactly one gene per well-id of
the parents' union, with no duplicates.  (As stated, with arbitrary
well-id sets, the claim fails: see the counterexample.) -/
theorem c5_crossover_unique (p1 p2 : Chromosome) (cut : Nat)
    (h1 : (p1.map Prod.fst).Nodup) (h2 : (p2.map Prod.fst).Nodup)
    (hset : ∀ w, w ∈ p1.map Prod.fst ↔ w ∈ p2.map Prod.fst)
    (hc1 : 1 ≤ cut) (hc2 : cut ≤ p1.length - 2) :
    ((crossoverAt p1 p2 cut).map Prod.fst).Nodup ∧
    ∀ w, w ∈ (crossoverAt p1 p2 cut).map Prod.fst ↔
      (w ∈ p1.map Prod.fst ∨ w ∈ p2.map Prod.fst) := by
  have hchild : (crossoverAt p1 p2 cut).map Prod.fst =
      (p1.take cut).map Prod.fst ++
      (p2.filter (fun g => decide (g.1 ∉ (p1.take cut).map Prod.fst))).map Prod.fst := by
    unfold crossoverAt
    simp [List.map_append]
  have husedsub : ∀ w, w ∈ (p1.take cut).map Prod.fst → w ∈ p1.map Prod.fst := by
    intro w hw
    obtain ⟨g, hg, hgw⟩ := List.mem_map.mp hw
    exact List.mem_map.mpr ⟨g, List.take_subset _ _ hg, hgw⟩
  have hfiltmem : ∀ w,
      w ∈ (p2.filter (fun g => decide (g.1 ∉ (p1.take cut).map Prod.fst))).map Prod.fst ↔
      (w ∈ p2.map Prod.fst ∧ w ∉ (p1.take cut).map Prod.fst) := by
    intro w
    constructor
    · intro hw
      obtain ⟨g, hg, hgw⟩ := List.mem_map.mp hw
      obtain ⟨hgp2, hpred⟩ := List.mem_filter.mp hg
      rw [decide_eq_true_eq] at hpred
      exact ⟨List.mem_map.mpr ⟨g, hgp2, hgw⟩, hgw ▸ hpred⟩
    · rintro ⟨hw2, hwnot⟩
      obtain ⟨g, hg, hgw⟩ := List.mem_map.mp hw2
      refine List.mem_map.mpr ⟨g, List.mem_filter.mpr ⟨hg, ?_⟩, hgw⟩
      rw [decide_eq_true_eq, hgw]
      exact hwnot
  constructor
  · rw [hchild]
    refine List.Nodup.append ?_ ?_ ?_
    · rw [List.map_take]
      exact List.Nodup.sublist (List.take_sublist _ _) h1
    · exact List.Nodup.sublist (List.Sublist.map Prod.fst (List.filter_sublist _)) h2
    · intro w hw1 hw2
      exact ((hfiltmem w).mp hw2).2 hw1
  · intro w
    rw [hchild, List.mem_append, hfiltmem w]
    constructor
    · rintro (hw | ⟨hw2, _⟩)
      · exact Or.inl (husedsub w hw)
      · exact Or.inr hw2
    · intro hw
      have hw2 : w ∈ p2.map Prod.fst := by
        rcases hw with hw | hw
        · exact (hset w).mp hw
        · exact hw
      by_cases hu : w ∈ (p1.take cut).map Prod.fst
      · exact Or.inl hu
      · exact Or.inr ⟨hw2, hu⟩

/-- C5 witness: equal-set parents of length 3 with cut 1 give a
duplicate-free child. -/
theorem c5_witness :
    ((crossoverAt [("a", true), ("b", true), ("c", true)]
        [("a", true), ("b", true), ("c", true)] 1).map Prod.fst).Nodup :=
  (c5_crossover_unique [("a", true), ("b", true), ("c", true)]
    [("a", true), ("b", true), ("c", true)] 1 (by decide) (by decide)
    (fun _ => Iff.rfl) (by decide) (by decide)).1

/-- C4: over every outcome of the random choices (initial population
`pop0` and per-generation offspring), the chromosome `optimize` returns
has fitness no larger than that of the best individual of the initial
(generation 0) population: sorting each generation by fitness and carrying
the top 10 unchanged never lets the population minimum increase, and
fitness is a deterministic function. -/
theorem c4_elitism_monotone (wells : List Well) (generations : Nat)
    (offspring : Nat → List Chromosome) (pop0 : List Chromosome)
    (best b0 : Chromosome)
    (hb : pyMinBy (fitKey wells) pop0 = some b0)
    (hr : optimizeGA wells generations offspring pop0 = some best) :
    fitKey wells best ≤ fitKey wells b0 := by
  have hne : pop0 ≠ [] := pyMinBy_ne_nil _ _ _ hb
  have hga := gaLoop_lmin wells generations offspring pop0 hne
  unfold optimizeGA at hr
  obtain ⟨x, hx, hkx⟩ := lminKey_attained (fitKey wells) _ hga.1
  have hone : fitKey wells best ≤
      lminKey (fitKey wells) (gaLoop wells generations offspring pop0) :=
    le_trans (pyMinBy_le _ _ _ hr x hx) hkx
  have htwo : lminKey (fitKey wells) pop0 ≤ fitKey wells b0 :=
    lminKey_le _ _ _ (pyMinBy_mem _ _ _ hb)
  exact le_trans (le_trans hone hga.2) htwo

/-- C4 witness: a singleton population over no wells, zero generations. -/
theorem c4_witness : fitKey [] [] ≤ fitKey [] [] :=
  c4_elitism_monotone [] 0 (fun _ => []) [[]] [] [] rfl rfl
